import Mathlib

/-!
Shallow embedding of the core of the `synthesis` probabilistic-program
synthesizer, together with theorems settling the claims of its
natural-language specification.

The embedding follows the Python source:
* `paynt/paynt/sketch/holes.py` — holes, families (design spaces), the
  SAT-oracle-backed enumeration (`pick_assignment` / `exclude_assignment`)
  and the combination coloring;
* `paynt/paynt/synthesizers/synthesizer.py` — the CEGIS loop's conflict
  construction and the hybrid stage controller (`StageControl`);
* `paynt/quotient/storm_pomdp_control.py` — oracle-advice fusion
  (`get_main_restricted_family`, `get_subfamilies`, `update_data`);
* `paynt/simulation/simulation.py` — `SimulatedModel.sample_path`.

Python integers are modelled as `Int` (or `Nat` where the source only ever
produces indices), Python floats appearing in the stage controller as `ℚ`,
Python dictionaries as association lists in insertion order, and the
external z3 solver by an explicit list of asserted clauses, each clause a
boolean function of a candidate model; the model produced by a `sat` answer
is carried inside the `sat` constructor.  Randomness and timers are
modelled by explicit oracle parameters.
-/

namespace Paynt

/-- Hole with a name, a list of options and corresponding option labels,
from `holes.py` (`Hole.__init__`). -/
structure Hole where
  name : String
  options : List Int
  option_labels : List String
deriving DecidableEq, Repr

instance : Inhabited Hole := ⟨⟨"", [], []⟩⟩

/-- Embeds `Hole.size`: number of options of the hole. -/
def Hole.size (h : Hole) : Nat := h.options.length

/-- Embeds `Hole.copy`: in the pure embedding a copy is the value itself. -/
def Hole.copy (h : Hole) : Hole := h

/-- Embeds `Hole.assume_suboptions`: replace the option list, keeping name and
labels. -/
def Hole.assume_suboptions (h : Hole) (suboptions : List Int) : Hole :=
  ⟨h.name, suboptions, h.option_labels⟩

/-- Embeds `Holes` is a list of holes. -/
abbrev Holes := List Hole

/-- Embeds `Holes.num_holes`. -/
def Holes.num_holes (hs : Holes) : Nat := hs.length

/-- Embeds `Holes.hole_indices`: the list `0, …, num_holes - 1`. -/
def Holes.hole_indices (hs : Holes) : List Nat := List.range hs.length

/-- Embeds `Holes.size`: family size, the product of the hole sizes. -/
def Holes.size (hs : Holes) : Nat := (hs.map Hole.size).prod

/-- Embeds `Holes.assume_hole_suboptions`: copy the family and replace the options
of the hole at the given index. -/
def Holes.assume_hole_suboptions (hs : Holes) (hole_index : Nat)
    (suboptions : List Int) : Holes :=
  match hs[hole_index]? with
  | some h => hs.set hole_index (h.assume_suboptions suboptions)
  | none => hs

/-- Embeds `Holes.assume_suboptions`: assume suboptions for each hole.  The source
indexes `hole_suboptions` positionally over `enumerate(self)`; on the
equal-length inputs the source admits this is `zipWith`. -/
def Holes.assume_suboptions (hs : Holes) (hole_suboptions : List (List Int)) :
    Holes :=
  List.zipWith Hole.assume_suboptions hs hole_suboptions

/-- Embeds `Holes.pick_any`: the singleton family taking each hole's first
option. -/
def Holes.pick_any (hs : Holes) : Holes :=
  Holes.assume_suboptions hs (hs.map (fun h => [h.options.headI]))

/-- Embeds `Holes.includes`: containment check of a partial assignment, given as
the items of a dictionary `hole_index ↦ option`. -/
def Holes.includes (hs : Holes) (hole_options : List (Nat × Int)) : Bool :=
  hole_options.all (fun p => ((hs.getD p.1 default).options).contains p.2)

/-- Candidate model of the z3 solver: an integer value for every solver
variable (one variable per hole index). -/
abbrev Z3Model := Nat → Int

/-- An asserted z3 clause, modelled semantically as a boolean function of a
candidate model. -/
abbrev Z3Clause := Z3Model → Bool

/-- Answer of a `solver.check` call.  A `sat` answer carries the model that
`solver.model()` subsequently reads back. -/
inductive Z3Result where
  | sat (model : Z3Model)
  | unsat
  | unknown

namespace DesignSpace

/-- Embeds `DesignSpace.z3_encode`: the encoding of a design space, the
conjunction over holes of the disjunction of `vᵢ = o` over the hole's
options. -/
def z3_encode (hs : Holes) : Z3Clause :=
  fun m =>
    (List.range hs.length).all (fun i =>
      ((hs.getD i default).options).any (fun o => m i == o))

/-- The singleton family a `sat` answer with model `m` is turned into by
`DesignSpace.pick_assignment`: every hole pinned to the model value of its
variable. -/
def picked (hs : Holes) (m : Z3Model) : Holes :=
  Holes.assume_suboptions hs ((List.range hs.length).map (fun i => [m i]))

/-- Embeds `DesignSpace.pick_assignment`: `None` unless the solver answered `sat`,
otherwise the singleton family read off the model.  The solver answer is an
explicit input, standing for `DesignSpace.solver.check(self.encoding)`. -/
def pick_assignment (hs : Holes) (solver_result : Z3Result) : Option Holes :=
  match solver_result with
  | .sat m => some (picked hs m)
  | .unsat => none
  | .unknown => none

/-- The clause asserted by `DesignSpace.exclude_assignment`: the negation
of (conflict holes pinned to the witness values, the other holes ranging
over the current family's options). -/
def counterexample_encoding (hs assignment : Holes) (conflict : List Nat) :
    Z3Clause :=
  fun m =>
    !((List.range hs.length).all (fun i =>
      if conflict.contains i then
        m i == (assignment.getD i default).options.headI
      else
        ((hs.getD i default).options).any (fun o => m i == o)))

/-- Embeds `DesignSpace.exclude_assignment`: permanently add the blocking clause
to the solver state. -/
def exclude_assignment (solver : List Z3Clause) (hs assignment : Holes)
    (conflict : List Nat) : List Z3Clause :=
  solver ++ [counterexample_encoding hs assignment conflict]

end DesignSpace

end Paynt

namespace Paynt

theorem Holes.size_set_le (hs : Holes) (i : Nat) (h' : Hole)
    (hle : h'.size ≤ (hs.getD i default).size) :
    Holes.size (hs.set i h') ≤ Holes.size hs := by
  by_cases hi : i < hs.length
  · unfold Holes.size
    rw [List.map_set]
    set L := hs.map Hole.size with hL
    have hiL : i < L.length := by simpa [hL] using hi
    rw [List.prod_set]
    rw [if_pos hiL]
    have hdecomp : L.prod = (L.take i).prod * (L[i] * (L.drop (i + 1)).prod) := by
      rw [← List.prod_take_mul_prod_drop L i, List.drop_eq_getElem_cons hiL,
        List.prod_cons]
    rw [hdecomp]
    have hLi : L[i] = (hs.getD i default).size := by
      rw [List.getD_eq_getElem _ _ hi]
      simp [hL]
    rw [mul_assoc]
    exact Nat.mul_le_mul le_rfl (Nat.mul_le_mul (hLi ▸ hle) le_rfl)
  · rw [List.set_eq_of_length_le (Nat.le_of_not_lt hi)]

theorem Holes.getD_set_ne (hs : Holes) (i j : Nat) (h' : Hole) (hne : j ≠ i) :
    (hs.set i h').getD j default = hs.getD j default := by
  rw [List.getD_eq_getElem?_getD, List.getD_eq_getElem?_getD,
    List.getElem?_set_ne (Ne.symm hne)]

theorem Holes.getD_set_self (hs : Holes) (i : Nat) (h' : Hole)
    (hi : i < hs.length) : (hs.set i h').getD i default = h' := by
  rw [List.getD_eq_getElem?_getD, List.getElem?_set_eq_of_lt h' hi]
  rfl

theorem Holes.length_assume_suboptions (hs : Holes) (subs : List (List Int)) :
    (Holes.assume_suboptions hs subs).length = min hs.length subs.length := by
  simp [Holes.assume_suboptions]

theorem Holes.assume_suboptions_getD (hs : Holes) (subs : List (List Int))
    (k : Nat) (hk : k < hs.length) (hk' : k < subs.length) :
    (Holes.assume_suboptions hs subs).getD k default =
      (hs.getD k default).assume_suboptions (subs.getD k []) := by
  induction hs generalizing subs k with
  | nil => simp at hk
  | cons h hs ih =>
    cases subs with
    | nil => simp at hk'
    | cons s subs =>
      cases k with
      | zero => simp [Holes.assume_suboptions]
      | succ k =>
        have := ih subs k (by simpa using hk) (by simpa using hk')
        simpa [Holes.assume_suboptions] using this

theorem Holes.size_assume_suboptions_le (hs : Holes) (subs : List (List Int))
    (hlen : hs.length ≤ subs.length)
    (hle : ∀ k, k < hs.length →
      (subs.getD k []).length ≤ (hs.getD k default).size) :
    Holes.size (Holes.assume_suboptions hs subs) ≤ Holes.size hs := by
  induction hs generalizing subs with
  | nil => simp [Holes.assume_suboptions, Holes.size]
  | cons h hs ih =>
    cases subs with
    | nil => simp at hlen
    | cons s subs =>
      have h0 := hle 0 (by simp)
      simp only [List.getD_cons_zero] at h0
      have hrec := ih subs (by simpa using hlen)
        (fun k hk => by simpa using hle (k + 1) (by simpa using hk))
      simp only [Holes.assume_suboptions, List.zipWith_cons_cons, Holes.size,
        List.map_cons, List.prod_cons] at *
      exact Nat.mul_le_mul h0 hrec

end Paynt

section ClaimC5

open Paynt

/-- C5: refinement monotonicity and purity.  Restricting one hole with
`assume_hole_suboptions`, or every hole with `assume_suboptions`, to
suboption sets contained in the original options yields a family that is no
larger, every partial assignment it includes is included in the original,
and (for the single-hole operation) every other hole is untouched; the
source family itself, the operations being pure, is never mutated. -/
theorem refinement_monotonic :
    (∀ (F : Holes) (i : Nat) (sub : List Int),
      sub ⊆ (F.getD i default).options → sub.Nodup →
      (Holes.size (Holes.assume_hole_suboptions F i sub) ≤ Holes.size F ∧
       (∀ d, Holes.includes (Holes.assume_hole_suboptions F i sub) d = true →
          Holes.includes F d = true) ∧
       (∀ j, j ≠ i →
          (Holes.assume_hole_suboptions F i sub).getD j default =
            F.getD j default))) ∧
    (∀ (F : Holes) (subs : List (List Int)),
      subs.length = F.length →
      (∀ k, k < F.length →
        (subs.getD k []) ⊆ (F.getD k default).options ∧ (subs.getD k []).Nodup) →
      (Holes.size (Holes.assume_suboptions F subs) ≤ Holes.size F ∧
       ∀ d, Holes.includes (Holes.assume_suboptions F subs) d = true →
          Holes.includes F d = true)) := by
  constructor
  · intro F i sub hsub hnd
    unfold Holes.assume_hole_suboptions
    cases hget : F[i]? with
    | none =>
      simp only [hget]
      exact ⟨le_rfl, fun d hd => hd, by simp⟩
    | some h =>
      have hi : i < F.length := (List.getElem?_eq_some.mp hget).1
      have hFi : F[i] = h := by
        rw [List.getElem?_eq_getElem hi] at hget
        exact Option.some.inj hget
      have hFiD : F.getD i default = h := by
        rw [List.getD_eq_getElem _ _ hi, hFi]
      simp only [hget]
      refine ⟨?_, ?_, ?_⟩
      · apply Holes.size_set_le
        rw [hFiD]
        have hlen : sub.length ≤ h.options.length := by
          have := List.Nodup.subperm hnd (by rwa [hFiD] at hsub)
          exact this.length_le
        simpa [Hole.assume_suboptions, Hole.size] using hlen
      · intro d hd
        unfold Holes.includes at *
        rw [List.all_eq_true] at *
        intro p hp
        have hdp := hd p hp
        by_cases hpi : p.1 = i
        · rw [hpi] at hdp ⊢
          rw [Holes.getD_set_self F i _ hi] at hdp
          have hmem : p.2 ∈ sub := by
            simpa [Hole.assume_suboptions] using hdp
          have : p.2 ∈ (F.getD i default).options := hsub hmem
          simpa using this
        · rwa [Holes.getD_set_ne F i p.1 _ hpi] at hdp
      · intro j hj
        exact Holes.getD_set_ne F i j _ hj
  · intro F subs hlen hk
    refine ⟨?_, ?_⟩
    · apply Holes.size_assume_suboptions_le
      · omega
      · intro k hkF
        have := (hk k hkF).2.subperm ((hk k hkF).1)
        have hl := this.length_le
        simpa [Hole.size] using hl
    · intro d hd
      unfold Holes.includes at *
      rw [List.all_eq_true] at *
      intro p hp
      have hdp := hd p hp
      by_cases hpF : p.1 < F.length
      · rw [Holes.assume_suboptions_getD F subs p.1 hpF (by omega)] at hdp
        have hmem : p.2 ∈ subs.getD p.1 [] := by
          simpa [Hole.assume_suboptions] using hdp
        have : p.2 ∈ (F.getD p.1 default).options := (hk p.1 hpF).1 hmem
        simpa using this
      · exfalso
        have hout : (Holes.assume_suboptions F subs).length ≤ p.1 := by
          rw [Holes.length_assume_suboptions]
          omega
        rw [List.getD_eq_default _ _ hout] at hdp
        simp [default] at hdp

/-- Witness for C5 at the concrete family `h₀:{0,1,2}, h₁:{0,1}` restricted
to `h₀:{1,2}` (and, for the per-hole operation, to `{1,2} × {0}`). -/
theorem refinement_monotonic_witness :
    ([1, 2] : List Int) ⊆
      (([Hole.mk "h0" [0, 1, 2] [], Hole.mk "h1" [0, 1] []] :
        Holes).getD 0 default).options ∧
    ([1, 2] : List Int).Nodup ∧
    Holes.size (Holes.assume_hole_suboptions
      [Hole.mk "h0" [0, 1, 2] [], Hole.mk "h1" [0, 1] []] 0 [1, 2]) ≤
      Holes.size [Hole.mk "h0" [0, 1, 2] [], Hole.mk "h1" [0, 1] []] ∧
    Holes.size (Holes.assume_suboptions
      [Hole.mk "h0" [0, 1, 2] [], Hole.mk "h1" [0, 1] []] [[1, 2], [0]]) ≤
      Holes.size [Hole.mk "h0" [0, 1, 2] [], Hole.mk "h1" [0, 1] []] := by
  have h1 : ([1, 2] : List Int) ⊆
      (([Hole.mk "h0" [0, 1, 2] [], Hole.mk "h1" [0, 1] []] :
        Holes).getD 0 default).options := by
    decide
  have h2 : ([1, 2] : List Int).Nodup := by decide
  refine ⟨h1, h2, ?_, ?_⟩
  · exact (refinement_monotonic.1
      [Hole.mk "h0" [0, 1, 2] [], Hole.mk "h1" [0, 1] []] 0 [1, 2] h1 h2).1
  · refine (refinement_monotonic.2
      [Hole.mk "h0" [0, 1, 2] [], Hole.mk "h1" [0, 1] []] [[1, 2], [0]]
      (by decide) ?_).1
    intro k hkF
    have hk2 : k < 2 := by simpa using hkF
    interval_cases k
    · exact ⟨h1, h2⟩
    · exact ⟨by decide, by decide⟩

end ClaimC5

section ClaimC7

open Paynt

/-- C7: `pick_assignment` returns `NONE` exactly when the solver's check
does not report `sat` (so `unknown` is treated exactly like `unsat`), and
on `sat` it returns the singleton family in which every hole is pinned to
the single option-id read from the solver model. -/
theorem pick_assignment_contract (hs : Holes) (res : Z3Result) :
    (DesignSpace.pick_assignment hs res = none ↔
      ∀ m, res ≠ Z3Result.sat m) ∧
    (∀ m, res = Z3Result.sat m →
      DesignSpace.pick_assignment hs res = some (DesignSpace.picked hs m) ∧
      (DesignSpace.picked hs m).length = hs.length ∧
      ∀ i, i < hs.length →
        ((DesignSpace.picked hs m).getD i default).options = [m i]) := by
  constructor
  · cases res with
    | sat m => simp [DesignSpace.pick_assignment]
    | unsat => simp [DesignSpace.pick_assignment]
    | unknown => simp [DesignSpace.pick_assignment]
  · intro m hres
    subst hres
    refine ⟨rfl, ?_, ?_⟩
    · simp [DesignSpace.picked, Holes.assume_suboptions]
    · intro i hi
      have hlen : (DesignSpace.picked hs m).length = hs.length := by
        simp [DesignSpace.picked, Holes.assume_suboptions]
      have hi' : i < (DesignSpace.picked hs m).length := by omega
      rw [List.getD_eq_getElem _ _ hi']
      simp [DesignSpace.picked, Holes.assume_suboptions, Hole.assume_suboptions]

/-- Witness for C7 at a concrete design space and solver answer. -/
theorem pick_assignment_contract_witness :
    DesignSpace.pick_assignment [Hole.mk "x" [0, 1] ["a", "b"]]
        (Z3Result.sat (fun _ => 1)) =
      some [Hole.mk "x" [1] ["a", "b"]] ∧
    DesignSpace.pick_assignment [Hole.mk "x" [0, 1] ["a", "b"]]
        Z3Result.unknown = none := by
  have h := pick_assignment_contract [Hole.mk "x" [0, 1] ["a", "b"]]
    (Z3Result.sat (fun _ => 1))
  have h2 := (h.2 (fun _ => 1) rfl).1
  refine ⟨?_, ?_⟩
  · rw [h2]
    rfl
  · have h' := pick_assignment_contract [Hole.mk "x" [0, 1] ["a", "b"]]
      Z3Result.unknown
    exact h'.1.mpr (by intro m hm; cases hm)

end ClaimC7

namespace Paynt

theorem DesignSpace.picked_getD (fam : Holes) (m : Z3Model) (i : Nat)
    (hi : i < fam.length) :
    (DesignSpace.picked fam m).getD i default =
      (fam.getD i default).assume_suboptions [m i] := by
  unfold DesignSpace.picked
  rw [Holes.assume_suboptions_getD _ _ i hi (by simpa using hi)]
  congr 1
  rw [List.getD_eq_getElem _ _ (by simpa using hi)]
  simp

end Paynt

section ClaimC3

open Paynt

/-- C3: blocking soundness.  Once `exclude_assignment(a, c)` has added its
blocking clause to the solver, any model the solver can later return for
the family (a model satisfying every asserted clause and the family's
encoding — the z3 contract) yields, through `pick_assignment`, an
assignment that does not agree with the witness `a` on every hole of the
conflict `c`. -/
theorem exclude_assignment_blocks (S : List Z3Clause) (fam a : Holes)
    (c : List Nat) (m : Z3Model) (b : Holes)
    (hsound : ∀ cl ∈ DesignSpace.exclude_assignment S fam a c, cl m = true)
    (henc : DesignSpace.z3_encode fam m = true)
    (hpick : DesignSpace.pick_assignment fam (Z3Result.sat m) = some b) :
    ¬ (∀ i ∈ c, i < fam.length →
        (b.getD i default).options = [(a.getD i default).options.headI]) := by
  intro hag
  have hb : b = DesignSpace.picked fam m := by
    have := hpick
    simp only [DesignSpace.pick_assignment, Option.some.injEq] at this
    exact this.symm
  have hcl : DesignSpace.counterexample_encoding fam a c m = true :=
    hsound _ (List.mem_append_right _ (List.mem_singleton_self _))
  unfold DesignSpace.counterexample_encoding at hcl
  rw [Bool.not_eq_true'] at hcl
  have hall : (List.range fam.length).all (fun i =>
      if c.contains i then
        m i == (a.getD i default).options.headI
      else
        ((fam.getD i default).options).any (fun o => m i == o)) = true := by
    rw [List.all_eq_true]
    intro i hi
    have hilen : i < fam.length := List.mem_range.mp hi
    by_cases hic : c.contains i
    · simp only [hic, if_true]
      have h1 := hag i (by simpa using hic) hilen
      have h2 : (b.getD i default).options = [m i] := by
        rw [hb, DesignSpace.picked_getD fam m i hilen]
        rfl
      rw [h2] at h1
      have : m i = (a.getD i default).options.headI := by
        injection h1
      simp [this]
    · simp only [hic]
      simp only [Bool.false_eq_true, if_false]
      unfold DesignSpace.z3_encode at henc
      rw [List.all_eq_true] at henc
      exact henc i hi
  rw [hall] at hcl
  cases hcl

/-- Witness for C3: family `x:{0,1}`, witness assignment `x=0`, conflict
`{0}`; a later model must then pick `x=1`, which does not agree with the
witness. -/
theorem exclude_assignment_blocks_witness :
    ¬ (∀ i ∈ [0], i < ([Hole.mk "x" [0, 1] []] : Holes).length →
        ((([Hole.mk "x" [1] []] : Holes)).getD i default).options =
          [(([Hole.mk "x" [0] []] : Holes).getD i default).options.headI]) :=
  exclude_assignment_blocks [] [Hole.mk "x" [0, 1] []] [Hole.mk "x" [0] []]
    [0] (fun _ => 1) [Hole.mk "x" [1] []]
    (by
      intro cl hcl
      simp only [DesignSpace.exclude_assignment, List.nil_append,
        List.mem_singleton] at hcl
      subst hcl
      decide)
    (by decide)
    (by decide)

end ClaimC3

namespace Paynt

/-- The conflict `SynthesizerCEGIS.run` attaches to every unsatisfiable
property: all hole indices of the picked assignment. -/
def SynthesizerCEGIS.cegis_conflict (assignment : Holes) : List Nat :=
  Holes.hole_indices assignment

/-- All option tuples of a family: the Cartesian product of the hole
option lists, in order.  Its length is exactly `Holes.size`. -/
def Holes.all_option_tuples : Holes → List (List Int)
  | [] => [[]]
  | h :: hs =>
      h.options.flatMap (fun o => (Holes.all_option_tuples hs).map (o :: ·))

theorem Holes.length_flatMap_map_cons (opts : List Int) (ts : List (List Int)) :
    (opts.flatMap (fun o => ts.map (o :: ·))).length = opts.length * ts.length := by
  induction opts with
  | nil => simp
  | cons o opts ih =>
    simp [List.flatMap_cons, ih, Nat.succ_mul]
    omega

theorem Holes.length_all_option_tuples (hs : Holes) :
    (Holes.all_option_tuples hs).length = Holes.size hs := by
  induction hs with
  | nil => simp [Holes.all_option_tuples, Holes.size]
  | cons h hs ih =>
    unfold Holes.all_option_tuples
    rw [Holes.length_flatMap_map_cons, ih]
    simp [Holes.size, Hole.size]

/-- The value vector a model assigns to the family's solver variables. -/
def DesignSpace.model_vec (hs : Holes) (m : Z3Model) : List Int :=
  (List.range hs.length).map m

theorem DesignSpace.z3_encode_cons (h : Hole) (hs : Holes) (m : Z3Model) :
    DesignSpace.z3_encode (h :: hs) m =
      (h.options.any (fun o => m 0 == o) &&
        DesignSpace.z3_encode hs (fun i => m (i + 1))) := by
  unfold DesignSpace.z3_encode
  simp only [List.length_cons, List.range_succ_eq_map, List.all_cons,
    List.all_map]
  rfl

theorem DesignSpace.model_vec_mem_tuples (hs : Holes) (m : Z3Model)
    (henc : DesignSpace.z3_encode hs m = true) :
    DesignSpace.model_vec hs m ∈ Holes.all_option_tuples hs := by
  induction hs generalizing m with
  | nil => simp [DesignSpace.model_vec, Holes.all_option_tuples]
  | cons h hs ih =>
    rw [DesignSpace.z3_encode_cons] at henc
    rw [Bool.and_eq_true] at henc
    have h0 : m 0 ∈ h.options := by
      have := henc.1
      rw [List.any_eq_true] at this
      obtain ⟨o, ho, hbeq⟩ := this
      rw [beq_iff_eq] at hbeq
      rwa [hbeq]
    have htail := ih (fun i => m (i + 1)) henc.2
    have hvec : DesignSpace.model_vec (h :: hs) m =
        m 0 :: DesignSpace.model_vec hs (fun i => m (i + 1)) := by
      unfold DesignSpace.model_vec
      simp [List.range_succ_eq_map]
    rw [hvec]
    unfold Holes.all_option_tuples
    rw [List.mem_flatMap]
    exact ⟨m 0, h0, List.mem_map_of_mem _ htail⟩

theorem DesignSpace.model_vec_getElem (hs : Holes) (m : Z3Model) (i : Nat)
    (hi : i < hs.length) :
    (DesignSpace.model_vec hs m).getD i 0 = m i := by
  unfold DesignSpace.model_vec
  rw [List.getD_eq_getElem _ _ (by simpa using hi)]
  simp

theorem DesignSpace.counterexample_distinct (fam : Holes) (mj mk : Z3Model)
    (hcl : DesignSpace.counterexample_encoding fam
      (DesignSpace.picked fam mj)
      (SynthesizerCEGIS.cegis_conflict (DesignSpace.picked fam mj)) mk = true) :
    DesignSpace.model_vec fam mk ≠ DesignSpace.model_vec fam mj := by
  intro heq
  unfold DesignSpace.counterexample_encoding at hcl
  rw [Bool.not_eq_true'] at hcl
  have hlen : (DesignSpace.picked fam mj).length = fam.length := by
    simp [DesignSpace.picked, Holes.assume_suboptions]
  have hall : (List.range fam.length).all (fun i =>
      if (SynthesizerCEGIS.cegis_conflict (DesignSpace.picked fam mj)).contains i then
        mk i == ((DesignSpace.picked fam mj).getD i default).options.headI
      else
        ((fam.getD i default).options).any (fun o => mk i == o)) = true := by
    rw [List.all_eq_true]
    intro i hi
    have hilen : i < fam.length := List.mem_range.mp hi
    have hconf : (SynthesizerCEGIS.cegis_conflict
        (DesignSpace.picked fam mj)).contains i = true := by
      simp [SynthesizerCEGIS.cegis_conflict, Holes.hole_indices, hlen, hilen]
    simp only [hconf, if_true]
    rw [DesignSpace.picked_getD fam mj i hilen]
    have hmk : mk i = mj i := by
      have h1 := DesignSpace.model_vec_getElem fam mk i hilen
      have h2 := DesignSpace.model_vec_getElem fam mj i hilen
      rw [← h1, ← h2, heq]
    simp [Hole.assume_suboptions, hmk]
  rw [hall] at hcl
  cases hcl

end Paynt

section ClaimC4

open Paynt

/-- C4: CEGIS termination bound.  In the CEGIS loop every iteration
excludes the picked assignment (the conflict of `run` is all hole
indices), so any sequence of solver models in which each model satisfies
the family encoding together with all previously added blocking clauses —
which is what the z3 contract guarantees for the models `pick_assignment`
reads — has length at most `family.size`. -/
theorem cegis_iteration_bound (fam : Holes) (K : Nat) (ms : Nat → Z3Model)
    (henc : ∀ k, k < K → DesignSpace.z3_encode fam (ms k) = true)
    (hexcl : ∀ k, k < K → ∀ j, j < k →
      DesignSpace.counterexample_encoding fam
        (DesignSpace.picked fam (ms j))
        (SynthesizerCEGIS.cegis_conflict (DesignSpace.picked fam (ms j)))
        (ms k) = true) :
    K ≤ Holes.size fam := by
  classical
  set L := (List.finRange K).map (fun k => DesignSpace.model_vec fam (ms k.val))
    with hL
  have hnodup : L.Nodup := by
    apply List.Nodup.map_on _ (List.nodup_finRange K)
    intro x _ y _ hxy
    by_contra hne
    have hvx : x.val < K := x.isLt
    have hvy : y.val < K := y.isLt
    rcases Nat.lt_or_ge x.val y.val with hlt | hge
    · exact DesignSpace.counterexample_distinct fam (ms x.val) (ms y.val)
        (hexcl y.val hvy x.val hlt) hxy.symm
    · have hlt : y.val < x.val := by
        rcases Nat.eq_or_lt_of_le hge with heq | hlt
        · exact absurd (Fin.ext heq.symm) hne
        · exact hlt
      exact DesignSpace.counterexample_distinct fam (ms y.val) (ms x.val)
        (hexcl x.val hvx y.val hlt) hxy
  have hsub : L ⊆ Holes.all_option_tuples fam := by
    intro v hv
    rw [hL, List.mem_map] at hv
    obtain ⟨k, _, hk⟩ := hv
    rw [← hk]
    exact DesignSpace.model_vec_mem_tuples fam (ms k.val) (henc k.val k.isLt)
  have hle := (List.Nodup.subperm hnodup hsub).length_le
  rw [Holes.length_all_option_tuples] at hle
  simpa [hL] using hle

/-- Witness for C4: one hole with a single option; one successful pick is
within the bound `family.size = 1`. -/
theorem cegis_iteration_bound_witness :
    1 ≤ Holes.size [Hole.mk "h" [0] []] :=
  cegis_iteration_bound [Hole.mk "h" [0] []] 1 (fun _ _ => 0)
    (by
      intro k hk
      show DesignSpace.z3_encode [Hole.mk "h" [0] []] (fun _ => (0 : Int)) = true
      decide)
    (by
      intro k hk j hj
      exact absurd hj (by omega))

end ClaimC4

namespace Paynt

/-- A (partial) hole-assignment tuple: one entry per hole, `none` meaning
the hole is irrelevant to the colored object. -/
abbrev HoleAssignment := List (Option Int)

/-- First-match lookup in an association list, modelling a Python
dictionary read. -/
def alookup {α β : Type} [DecidableEq α] : List (α × β) → α → Option β
  | [], _ => none
  | p :: ps, k => if p.1 = k then some p.2 else alookup ps k

/-- Python dictionary assignment: overwrite the binding in place when the
key is present, else append a new binding. -/
def dinsert {α β : Type} [DecidableEq α] (l : List (α × β)) (k : α) (v : β) :
    List (α × β) :=
  if (alookup l k).isSome then
    l.map (fun p => if p.1 = k then (k, v) else p)
  else l ++ [(k, v)]

@[simp] theorem alookup_nil {α β : Type} [DecidableEq α] (k : α) :
    alookup ([] : List (α × β)) k = none := rfl

@[simp] theorem alookup_cons {α β : Type} [DecidableEq α]
    (p : α × β) (ps : List (α × β)) (k : α) :
    alookup (p :: ps) k = if p.1 = k then some p.2 else alookup ps k := rfl

theorem alookup_eq_none_iff {α β : Type} [DecidableEq α]
    (l : List (α × β)) (k : α) :
    alookup l k = none ↔ ∀ p ∈ l, p.1 ≠ k := by
  induction l with
  | nil => simp
  | cons p ps ih =>
    by_cases hp : p.1 = k
    · simp [hp]
    · simp [hp, ih]

theorem mem_of_alookup_eq_some {α β : Type} [DecidableEq α]
    {l : List (α × β)} {k : α} {v : β} (h : alookup l k = some v) :
    (k, v) ∈ l := by
  induction l with
  | nil => simp at h
  | cons p ps ih =>
    obtain ⟨p1, p2⟩ := p
    rw [alookup_cons] at h
    simp only at h
    by_cases hp : p1 = k
    · rw [if_pos hp] at h
      obtain rfl : p2 = v := Option.some.inj h
      subst hp
      exact List.mem_cons_self _ _
    · rw [if_neg hp] at h
      exact List.mem_cons_of_mem _ (ih h)

theorem alookup_append_of_none {α β : Type} [DecidableEq α]
    {l : List (α × β)} (l' : List (α × β)) {k : α}
    (h : alookup l k = none) : alookup (l ++ l') k = alookup l' k := by
  induction l with
  | nil => simp
  | cons p ps ih =>
    rw [alookup_cons] at h
    by_cases hp : p.1 = k
    · rw [if_pos hp] at h
      cases h
    · rw [if_neg hp] at h
      rw [List.cons_append, alookup_cons, if_neg hp]
      exact ih h

/-- Dictionary of colors associated with hole combinations, from
`holes.py` (`CombinationColoring`); color 0 is reserved for hole-free
objects. -/
structure CombinationColoring where
  coloring : List (HoleAssignment × Nat)
  reverse_coloring : List (Nat × HoleAssignment)
deriving DecidableEq, Repr

/-- Embeds `CombinationColoring.colors`: the number of assigned colors. -/
def CombinationColoring.colors (cc : CombinationColoring) : Nat :=
  cc.coloring.length

/-- Embeds `CombinationColoring.get_or_make_color`: return the color of the tuple,
assigning the fresh color `|coloring| + 1` (and recording it in both
directions) when the tuple is new.  The updated coloring is returned
alongside, modelling the in-place mutation. -/
def CombinationColoring.get_or_make_color (cc : CombinationColoring)
    (hole_assignment : HoleAssignment) : Nat × CombinationColoring :=
  let new_color := cc.colors + 1
  let color := (alookup cc.coloring hole_assignment).getD new_color
  if color = new_color then
    (color,
      { coloring := dinsert cc.coloring hole_assignment color,
        reverse_coloring := dinsert cc.reverse_coloring color hole_assignment })
  else (color, cc)

/-- Well-formedness of a coloring state, as maintained by construction:
the reverse dictionary is the forward dictionary swapped, colors are
`1, …, |coloring|` in insertion order, and tuples are not duplicated. -/
def CombinationColoring.wf (cc : CombinationColoring) : Prop :=
  cc.reverse_coloring = cc.coloring.map (fun p => (p.2, p.1)) ∧
  cc.coloring.map Prod.snd = List.range' 1 cc.coloring.length ∧
  (cc.coloring.map Prod.fst).Nodup

theorem CombinationColoring.color_bounds {cc : CombinationColoring}
    (hwf : cc.wf) {t : HoleAssignment} {c : Nat} (h : (t, c) ∈ cc.coloring) :
    1 ≤ c ∧ c ≤ cc.colors := by
  have hc : c ∈ cc.coloring.map Prod.snd := List.mem_map_of_mem _ h
  rw [hwf.2.1, List.mem_range'] at hc
  obtain ⟨i, hi, hc⟩ := hc
  unfold CombinationColoring.colors
  omega

theorem alookup_swap_of_mem {l : List (HoleAssignment × Nat)} :
    ∀ s, l.map Prod.snd = List.range' s l.length →
    ∀ {t : HoleAssignment} {c : Nat}, (t, c) ∈ l →
    alookup (l.map (fun p => (p.2, p.1))) c = some t := by
  induction l with
  | nil => intro s _ t c h; simp at h
  | cons p ps ih =>
    intro s hs t c h
    simp only [List.map_cons, List.length_cons, List.range'_succ] at hs
    have hp2 : p.2 = s := (List.cons.injEq _ _ _ _ ▸ hs).1
    have hps : ps.map Prod.snd = List.range' (s + 1) ps.length :=
      (List.cons.injEq _ _ _ _ ▸ hs).2
    rcases List.mem_cons.mp h with heq | hmem
    · have h1 : t = p.1 := congrArg Prod.fst heq
      have h2 : c = p.2 := congrArg Prod.snd heq
      rw [List.map_cons, alookup_cons]
      rw [if_pos (show ((p.2, p.1) : Nat × HoleAssignment).1 = c from h2.symm)]
      rw [h1]
    · have hcgt : s + 1 ≤ c := by
        have : c ∈ ps.map Prod.snd := List.mem_map_of_mem _ hmem
        rw [hps, List.mem_range'] at this
        obtain ⟨i, _, hci⟩ := this
        omega
      have hne : p.2 ≠ c := by omega
      rw [List.map_cons, alookup_cons]
      rw [if_neg (show ¬(((p.2, p.1) : Nat × HoleAssignment).1 = c) from hne)]
      exact ih (s + 1) hps hmem

theorem CombinationColoring.gmc_of_some (cc : CombinationColoring)
    (t : HoleAssignment) (c : Nat) (h : alookup cc.coloring t = some c)
    (hne : c ≠ cc.colors + 1) :
    cc.get_or_make_color t = (c, cc) := by
  unfold CombinationColoring.get_or_make_color
  rw [h]
  simp [hne]

theorem CombinationColoring.gmc_of_none (cc : CombinationColoring)
    (t : HoleAssignment) (h : alookup cc.coloring t = none)
    (hrev : alookup cc.reverse_coloring (cc.colors + 1) = none) :
    cc.get_or_make_color t = (cc.colors + 1,
      { coloring := cc.coloring ++ [(t, cc.colors + 1)],
        reverse_coloring :=
          cc.reverse_coloring ++ [(cc.colors + 1, t)] }) := by
  unfold CombinationColoring.get_or_make_color
  rw [h]
  simp only [Option.getD_none, if_pos rfl]
  unfold dinsert
  rw [h, hrev]
  simp

end Paynt

section ClaimC6

open Paynt

/-- C6: coloring round trip and lazy numbering.  On any well-formed
coloring state, `get_or_make_color` is idempotent (a second call with the
same tuple returns the same color and the same state), the reverse
dictionary maps the returned color back to exactly the tuple, a tuple not
yet present receives color `|coloring| + 1`, and the returned color is
never 0. -/
theorem get_or_make_color_spec (cc : Paynt.CombinationColoring)
    (t : Paynt.HoleAssignment) (hwf : cc.wf) :
    ((cc.get_or_make_color t).2.get_or_make_color t = cc.get_or_make_color t) ∧
    alookup (cc.get_or_make_color t).2.reverse_coloring
      (cc.get_or_make_color t).1 = some t ∧
    (alookup cc.coloring t = none →
      (cc.get_or_make_color t).1 = cc.colors + 1) ∧
    (cc.get_or_make_color t).1 ≠ 0 := by
  cases hlook : alookup cc.coloring t with
  | some c =>
    have hmem := mem_of_alookup_eq_some hlook
    have hbound := CombinationColoring.color_bounds hwf hmem
    have hne : c ≠ cc.colors + 1 := by omega
    have hgmc := CombinationColoring.gmc_of_some cc t c hlook hne
    rw [hgmc]
    refine ⟨?_, ?_, ?_, ?_⟩
    · exact hgmc
    · show alookup cc.reverse_coloring c = some t
      rw [hwf.1]
      exact alookup_swap_of_mem 1 hwf.2.1 hmem
    · intro hnone
      simp [hlook] at hnone
    · show c ≠ 0
      omega
  | none =>
    have hfreshrev : alookup cc.reverse_coloring (cc.colors + 1) = none := by
      rw [hwf.1, alookup_eq_none_iff]
      intro p hp
      rw [List.mem_map] at hp
      obtain ⟨q, hq, hpq⟩ := hp
      obtain ⟨q1, q2⟩ := q
      have hb := CombinationColoring.color_bounds hwf hq
      rw [← hpq]
      show q2 ≠ cc.colors + 1
      omega
    have hgmc := CombinationColoring.gmc_of_none cc t hlook hfreshrev
    rw [hgmc]
    refine ⟨?_, ?_, ?_, ?_⟩
    · refine CombinationColoring.gmc_of_some _ t (cc.colors + 1) ?_ ?_
      · show alookup (cc.coloring ++ [(t, cc.colors + 1)]) t = _
        rw [alookup_append_of_none _ hlook]
        simp
      · show cc.colors + 1 ≠
          Paynt.CombinationColoring.colors
            { coloring := cc.coloring ++ [(t, cc.colors + 1)],
              reverse_coloring :=
                cc.reverse_coloring ++ [(cc.colors + 1, t)] } + 1
        simp [CombinationColoring.colors]
    · show alookup (cc.reverse_coloring ++ [(cc.colors + 1, t)])
        (cc.colors + 1) = some t
      rw [alookup_append_of_none _ hfreshrev]
      simp
    · intro _
      rfl
    · show cc.colors + 1 ≠ 0
      omega

/-- Witness for C6: the empty coloring is well-formed, and the claim holds
there for the tuple `(0, ⊥)`. -/
theorem get_or_make_color_spec_witness :
    Paynt.CombinationColoring.wf ⟨[], []⟩ ∧
    ((Paynt.CombinationColoring.mk [] []).get_or_make_color
        [some 0, none]).2.get_or_make_color [some 0, none] =
      (Paynt.CombinationColoring.mk [] []).get_or_make_color
        [some 0, none] := by
  have hwf : Paynt.CombinationColoring.wf ⟨[], []⟩ :=
    ⟨rfl, by simp [Paynt.CombinationColoring.wf], List.nodup_nil⟩
  exact ⟨hwf, (get_or_make_color_spec ⟨[], []⟩ [some 0, none] hwf).1⟩

end ClaimC6

namespace Paynt

/-- State of the hybrid stage controller (`StageControl` in
`synthesizer.py`).  The stage timer is modelled by passing the stage's
elapsed time to `step` explicitly; `models_total`, which `step` reads as
`self.models_total`, is the total family size stored by the enclosing
hybrid synthesizer and is carried as part of the state.  Times and pruned
counts (Python floats) are modelled as rationals. -/
structure StageControl where
  stage_time_cegar : ℚ
  stage_pruned_cegar : ℚ
  stage_time_cegis : ℚ
  stage_pruned_cegis : ℚ
  cegis_allocated_time_factor : ℚ
  stage_cegar : Bool
  cegis_allocated_time : ℚ
  models_total : ℚ
deriving DecidableEq, Repr

/-- Embeds `StageControl.__init__`: zero accumulators, allocation factor 1.0,
starting in the AR (cegar) stage. -/
def StageControl.mkInit (models_total : ℚ) : StageControl :=
  ⟨0, 0, 0, 0, 1, true, 0, models_total⟩

/-- Embeds `StageControl.step`: record the pruned models, and if the stage is
over, either (AR ending) allocate cegis time and switch to CEGIS, or
(CEGIS ending) recompute the allocation factor from the success rates and
switch back to AR.  Returns the new state and whether a switch took
place. -/
def StageControl.step (s : StageControl) (models_pruned : ℚ) (elapsed : ℚ) :
    StageControl × Bool :=
  let s :=
    if s.stage_cegar then
      { s with stage_pruned_cegar :=
          s.stage_pruned_cegar + models_pruned / s.models_total }
    else
      { s with stage_pruned_cegis :=
          s.stage_pruned_cegis + models_pruned / s.models_total }
  if s.stage_cegar = false ∧ elapsed < s.cegis_allocated_time then (s, false)
  else
    let current_time := elapsed
    if s.stage_cegar then
      let s := { s with stage_time_cegar := s.stage_time_cegar + current_time }
      let s := { s with cegis_allocated_time :=
          current_time * s.cegis_allocated_time_factor }
      ({ s with stage_cegar := false }, true)
    else
      let s := { s with stage_time_cegis := s.stage_time_cegis + current_time }
      let success_rate_cegar := s.stage_pruned_cegar / s.stage_time_cegar
      let success_rate_cegis := s.stage_pruned_cegis / s.stage_time_cegis
      let cegar_dominance :=
        if s.stage_pruned_cegar = 0 ∨ s.stage_pruned_cegis = 0 then 1
        else success_rate_cegar / success_rate_cegis
      let cegis_dominance := 1 / cegar_dominance
      ({ s with
          cegis_allocated_time_factor := cegis_dominance
          stage_cegar := true }, true)

end Paynt

section ClaimC1

open Paynt

/-- C1 counterexample: on a fresh controller over a family of 1000 models,
after `(AR prunes 100 in 1s)` then `(CEGIS prunes 10 in 1s)` the second
step sets the cegis allocation factor to `1/10`, not to `10` as claimed:
the code assigns the *cegis* dominance, the reciprocal of the AR/CEGIS
success-rate ratio. -/
theorem stage_factor_counterexample :
    ((((StageControl.mkInit 1000).step 100 1).1.step 10 1).1.cegis_allocated_time_factor
        = 1 / 10 ∧
      ((((StageControl.mkInit 1000).step 100 1).1.step 10 1).1.stage_cegar = true)) ∧
    ¬ ((((StageControl.mkInit 1000).step 100 1).1.step 10 1).1.cegis_allocated_time_factor
        = 10) := by
  have h1 : (StageControl.mkInit 1000).step 100 1 =
      (⟨1, 1 / 10, 0, 0, 1, false, 1, 1000⟩, true) := by
    simp only [StageControl.step, StageControl.mkInit]
    norm_num
  have h2 : StageControl.step ⟨1, 1 / 10, 0, 0, 1, false, 1, 1000⟩ 10 1 =
      (⟨1, 1 / 10, 1, 1 / 100, 1 / 10, true, 1, 1000⟩, true) := by
    simp only [StageControl.step]
    norm_num
  rw [h1, h2]
  refine ⟨⟨rfl, rfl⟩, by norm_num⟩

/-- C1 amended: for every nonzero total model count, the step sequence
`(AR prunes 100 in 1s)` then `(CEGIS prunes 10 in 1s)` makes both steps
report a switch, and the second step sets the cegis allocation factor to
`(10/1) / (100/1) = 1/10` — the CEGIS-to-AR success-rate ratio — leaving
the controller back in the AR stage. -/
theorem stage_factor_amended (T : ℚ) (hT : T ≠ 0) :
    ((StageControl.mkInit T).step 100 1).2 = true ∧
    ((StageControl.mkInit T).step 100 1).1.stage_cegar = false ∧
    (((StageControl.mkInit T).step 100 1).1.step 10 1).2 = true ∧
    (((StageControl.mkInit T).step 100 1).1.step 10 1).1.stage_cegar = true ∧
    (((StageControl.mkInit T).step 100 1).1.step 10 1).1.cegis_allocated_time_factor
      = 1 / 10 := by
  have h1 : (StageControl.mkInit T).step 100 1 =
      (⟨1, 100 / T, 0, 0, 1, false, 1, T⟩, true) := by
    simp only [StageControl.step, StageControl.mkInit]
    norm_num
  rw [h1]
  have h2 : (StageControl.step ⟨1, 100 / T, 0, 0, 1, false, 1, T⟩ 10 1) =
      (⟨1, 100 / T, 1, 10 / T, 1 / 10, true, 1, T⟩, true) := by
    simp only [StageControl.step]
    norm_num
    rw [if_neg hT]
    rw [div_div_div_cancel_right₀]
    · norm_num
    · exact hT
  rw [h2]
  exact ⟨rfl, rfl, rfl, rfl, rfl⟩

/-- Witness for C1's amended statement at total model count 1000. -/
theorem stage_factor_amended_witness :
    (1000 : ℚ) ≠ 0 ∧
    (((StageControl.mkInit 1000).step 100 1).1.step 10 1).1.cegis_allocated_time_factor
      = 1 / 10 :=
  ⟨by norm_num, (stage_factor_amended 1000 (by norm_num)).2.2.2.2⟩

end ClaimC1

namespace Simulation

/-- Simulated MDP/POMDP from `simulation.py`: the extracted transition
matrix, per state a row group with one row per action, each row the list
of `(column, value)` entries. -/
structure SimulatedModel where
  transition_rows : List (List (List (Nat × ℚ)))
deriving Repr

/-- Embeds `state_is_absorbing`, computed in `SimulatedModel.__init__`: a state
is absorbing when every entry of every row of its row group points back to
the state itself. -/
def SimulatedModel.state_is_absorbing (m : SimulatedModel) : List Bool :=
  (List.range m.transition_rows.length).map (fun state =>
    (m.transition_rows.getD state []).all (fun row =>
      row.all (fun e => e.1 == state)))

/-- Embeds `SimulatedModel.sample_path` unrolled with an explicit loop counter:
walk up to `length` steps, stopping at the first absorbing state; the
random `sample_action` and `sample_successor` draws are modelled by the
oracles `act step state` and `succ step state action`. -/
def SimulatedModel.sample_path_from (m : SimulatedModel)
    (act : Nat → Nat → Nat) (succ : Nat → Nat → Nat → Nat) :
    Nat → Nat → Nat → List (Nat × Nat)
  | _, _, 0 => []
  | step, state, Nat.succ len =>
      if m.state_is_absorbing.getD state false then []
      else
        (state, act step state) ::
          SimulatedModel.sample_path_from m act succ (step + 1)
            (succ step state (act step state)) len

/-- Embeds `SimulatedModel.sample_path(state, length)`. -/
def SimulatedModel.sample_path (m : SimulatedModel)
    (act : Nat → Nat → Nat) (succ : Nat → Nat → Nat → Nat)
    (state length : Nat) : List (Nat × Nat) :=
  SimulatedModel.sample_path_from m act succ 0 state length

theorem SimulatedModel.sample_path_from_spec (m : SimulatedModel)
    (act : Nat → Nat → Nat) (succ : Nat → Nat → Nat → Nat) :
    ∀ (L step s : Nat),
      (SimulatedModel.sample_path_from m act succ step s L).length ≤ L ∧
      (m.state_is_absorbing.getD s false = true →
        SimulatedModel.sample_path_from m act succ step s L = []) ∧
      (∀ p ∈ SimulatedModel.sample_path_from m act succ step s L,
        m.state_is_absorbing.getD p.1 false = false) := by
  intro L
  induction L with
  | zero =>
    intro step s
    simp [SimulatedModel.sample_path_from]
  | succ L ih =>
    intro step s
    obtain ⟨ihlen, _, ihmem⟩ := ih (step + 1) (succ step s (act step s))
    by_cases habs : m.state_is_absorbing.getD s false = true
    · have hempty :
          SimulatedModel.sample_path_from m act succ step s (L + 1) = [] := by
        simp only [SimulatedModel.sample_path_from]
        rw [if_pos habs]
      rw [hempty]
      exact ⟨by simp, fun _ => rfl, by simp⟩
    · have habs' : m.state_is_absorbing.getD s false = false := by
        simpa using habs
      have hcons :
          SimulatedModel.sample_path_from m act succ step s (L + 1) =
            (s, act step s) :: SimulatedModel.sample_path_from m act succ
              (step + 1) (succ step s (act step s)) L := by
        simp only [SimulatedModel.sample_path_from]
        rw [if_neg habs]
      rw [hcons]
      refine ⟨?_, fun h => absurd h habs, ?_⟩
      · simpa using Nat.succ_le_succ ihlen
      · intro p hp
        rcases List.mem_cons.mp hp with heq | hmem
        · rw [heq]
          exact habs'
        · exact ihmem p hmem

end Simulation

section ClaimC9

open Simulation

/-- C9: `sample_path(s, L)` returns at most `L` pairs, returns `[]`
whenever `s` is absorbing (every transition row of `s` loops back to `s`),
and since the walk stops at the first absorbing state, no pair of the path
has an absorbing first component. -/
theorem sample_path_spec (m : SimulatedModel) (act : Nat → Nat → Nat)
    (succ : Nat → Nat → Nat → Nat) (s L : Nat) :
    (m.sample_path act succ s L).length ≤ L ∧
    (m.state_is_absorbing.getD s false = true →
      m.sample_path act succ s L = []) ∧
    (∀ p ∈ m.sample_path act succ s L,
      m.state_is_absorbing.getD p.1 false = false) :=
  SimulatedModel.sample_path_from_spec m act succ L 0 s

/-- Witness for C9 on a two-state model whose state 0 is absorbing: the
path sampled from state 0 is empty, and a path of bound 2 from state 1 has
length at most 2. -/
theorem sample_path_spec_witness :
    (SimulatedModel.mk
        [[[(0, 1)]], [[(0, 1/2), (1, 1/2)]]]).state_is_absorbing.getD 0 false
      = true ∧
    (SimulatedModel.mk
        [[[(0, 1)]], [[(0, 1/2), (1, 1/2)]]]).sample_path
      (fun _ _ => 0) (fun _ _ _ => 0) 0 5 = [] ∧
    ((SimulatedModel.mk
        [[[(0, 1)]], [[(0, 1/2), (1, 1/2)]]]).sample_path
      (fun _ _ => 0) (fun _ _ _ => 0) 1 2).length ≤ 2 := by
  have habs : (SimulatedModel.mk
      [[[(0, 1)]], [[(0, 1/2), (1, 1/2)]]]).state_is_absorbing.getD 0 false
      = true := by
    decide
  refine ⟨habs, ?_, ?_⟩
  · exact (sample_path_spec (SimulatedModel.mk
      [[[(0, 1)]], [[(0, 1/2), (1, 1/2)]]])
      (fun _ _ => 0) (fun _ _ _ => 0) 0 5).2.1 habs
  · exact (sample_path_spec (SimulatedModel.mk
      [[[(0, 1)]], [[(0, 1/2), (1, 1/2)]]])
      (fun _ _ => 0) (fun _ _ _ => 0) 1 2).1

end ClaimC9

namespace StormControl

/-- Modelled from the spec: the quotient-side hole (the quotient package's
`Hole` class is not among the analysed sources; per the spec only its
ordered option set matters here), with `assume_options` replacing the
option list in place. -/
structure Hole where
  options : List Nat
deriving DecidableEq, Repr

instance : Inhabited Hole := ⟨⟨[]⟩⟩

/-- Modelled from the spec: `Hole.assume_options` replaces the hole's
option list. -/
def Hole.assume_options (_ : Hole) (options : List Nat) : Hole := ⟨options⟩

/-- The quotient data read by `get_main_restricted_family` and
`get_subfamilies`: observation count, actions and maximal successor memory
per observation, and the action/memory holes of each observation. -/
structure QuotientModel where
  observations : Nat
  actions_at_observation : List Nat
  max_successor_memory_size : List Nat
  observation_action_holes : List (List Nat)
  observation_memory_holes : List (List Nat)
deriving Repr

/-- The `StormPOMDPControl` attributes used by the modelled methods.
Result dictionaries map observations to allowed action indices. -/
structure StormPOMDPControl where
  result_dict : List (Nat × List Nat)
  result_dict_no_cutoffs : List (Nat × List Nat)
  result_dict_paynt : List (Nat × List Nat)
  is_storm_better : Bool
  storm_bounds : Option ℚ
  latest_paynt_result : Option (List Hole)
  paynt_export : List (List Nat)
deriving Repr

/-- Dictionary selection shared by `get_main_restricted_family` and
`get_subfamilies_restrictions`: the paynt dictionary when storm is not
better, else the cutoff or no-cutoff storm dictionary. -/
def StormPOMDPControl.chosen_result_dict (s : StormPOMDPControl)
    (use_cutoffs : Bool) : List (Nat × List Nat) :=
  if s.is_storm_better = false then s.result_dict_paynt
  else if use_cutoffs then s.result_dict
  else s.result_dict_no_cutoffs

/-- Action-restriction pass of `get_main_restricted_family` over the
action holes of one observation: each hole's new options are the selected
actions present among the hole's current options, falling back to `[0]`
when that intersection is empty. -/
def apply_action_restrictions (sel : List Nat) (fam : List Hole)
    (holes : List Nat) : List Hole :=
  holes.foldl (fun fam hole =>
    let options := sel.filter (fun a =>
      ((fam.getD hole default).options).contains a)
    let options := if options = [] then [0] else options
    fam.set hole ((fam.getD hole default).assume_options options)) fam

/-- Memory-restriction pass of `get_main_restricted_family` over the
memory holes of one observation: each such hole is reset to the full
update range. -/
def apply_memory_restrictions (num_updates : Nat) (fam : List Hole)
    (holes : List Nat) : List Hole :=
  holes.foldl (fun fam hole =>
    fam.set hole ((fam.getD hole default).assume_options
      (List.range num_updates))) fam

/-- Body of the observation loop of `get_main_restricted_family`: skip
observations without action holes, otherwise apply the action restriction
(selected actions are the dictionary entry, or `[0]` when the observation
is absent) and then the memory restriction. -/
def process_observation (q : QuotientModel) (dict : List (Nat × List Nat))
    (fam : List Hole) (obs : Nat) : List Hole :=
  let act_obs_holes := q.observation_action_holes.getD obs []
  if act_obs_holes.length = 0 then fam
  else
    let num_updates := q.max_successor_memory_size.getD obs 0
    let mem_obs_holes := q.observation_memory_holes.getD obs []
    let selected := (Paynt.alookup dict obs).getD [0]
    apply_memory_restrictions num_updates
      (apply_action_restrictions selected fam act_obs_holes) mem_obs_holes

/-- Embeds `StormPOMDPControl.get_main_restricted_family`: choose the result
dictionary, return the family unchanged when it is empty, else run the
observation loop over a copy of the family. -/
def StormPOMDPControl.get_main_restricted_family (s : StormPOMDPControl)
    (fam : List Hole) (q : QuotientModel) (use_cutoffs : Bool) : List Hole :=
  let dict := s.chosen_result_dict use_cutoffs
  if dict = [] then fam
  else (List.range q.observations).foldl (process_observation q dict) fam

/-- Embeds `StormPOMDPControl.update_data`: no-op when either value is missing;
otherwise `is_storm_better` is set to false exactly when the internal
value is at least as good as the storm bound (ties favour the internal
result), and a provided assignment is recorded together with its extracted
policy (`extract_policy` being external, it is passed as an oracle). -/
def StormPOMDPControl.update_data (s : StormPOMDPControl)
    (paynt_value : Option ℚ) (minimizing : Bool)
    (assignment : Option (List Hole))
    (extract_policy : List Hole → List (List Nat)) : StormPOMDPControl :=
  match paynt_value, s.storm_bounds with
  | some pv, some sb =>
    let s :=
      if minimizing then
        if pv ≤ sb then { s with is_storm_better := false }
        else { s with is_storm_better := true }
      else
        if pv ≥ sb then { s with is_storm_better := false }
        else { s with is_storm_better := true }
    match assignment with
    | some a => { s with
        latest_paynt_result := some a
        paynt_export := extract_policy a }
    | none => s
  | _, _ => s

end StormControl

namespace StormControl

theorem storm_getD_set_ne (fam : List Hole) (i j : Nat) (h' : Hole) (hne : j ≠ i) :
    (fam.set i h').getD j default = fam.getD j default := by
  rw [List.getD_eq_getElem?_getD, List.getD_eq_getElem?_getD,
    List.getElem?_set_ne (Ne.symm hne)]

theorem storm_getD_set_self (fam : List Hole) (i : Nat) (h' : Hole)
    (hi : i < fam.length) : (fam.set i h').getD i default = h' := by
  rw [List.getD_eq_getElem?_getD, List.getElem?_set_eq_of_lt h' hi]
  rfl

theorem apply_action_restrictions_length (sel : List Nat) :
    ∀ (holes : List Nat) (fam : List Hole),
      (apply_action_restrictions sel fam holes).length = fam.length := by
  intro holes
  induction holes with
  | nil => intro fam; rfl
  | cons x xs ih =>
    intro fam
    show (apply_action_restrictions sel _ xs).length = fam.length
    rw [ih]
    exact List.length_set fam x _

theorem apply_memory_restrictions_length (num_updates : Nat) :
    ∀ (holes : List Nat) (fam : List Hole),
      (apply_memory_restrictions num_updates fam holes).length = fam.length := by
  intro holes
  induction holes with
  | nil => intro fam; rfl
  | cons x xs ih =>
    intro fam
    show (apply_memory_restrictions num_updates _ xs).length = fam.length
    rw [ih]
    exact List.length_set fam x _

theorem process_observation_length (q : QuotientModel)
    (dict : List (Nat × List Nat)) (fam : List Hole) (obs : Nat) :
    (process_observation q dict fam obs).length = fam.length := by
  unfold process_observation
  by_cases hact : (q.observation_action_holes.getD obs []).length = 0
  · rw [if_pos hact]
  · rw [if_neg hact]
    rw [apply_memory_restrictions_length, apply_action_restrictions_length]

theorem foldl_process_length (q : QuotientModel)
    (dict : List (Nat × List Nat)) :
    ∀ (obsList : List Nat) (fam : List Hole),
      (obsList.foldl (process_observation q dict) fam).length = fam.length := by
  intro obsList
  induction obsList with
  | nil => intro fam; rfl
  | cons x xs ih =>
    intro fam
    rw [List.foldl_cons, ih, process_observation_length]

theorem apply_action_restrictions_getD_not_mem (sel : List Nat) :
    ∀ (holes : List Nat) (fam : List Hole) (j : Nat), j ∉ holes →
      (apply_action_restrictions sel fam holes).getD j default =
        fam.getD j default := by
  intro holes
  induction holes with
  | nil => intro fam j _; rfl
  | cons x xs ih =>
    intro fam j hj
    have hjx : j ≠ x := fun h => hj (h ▸ List.mem_cons_self x xs)
    have hjxs : j ∉ xs := fun h => hj (List.mem_cons_of_mem x h)
    show (apply_action_restrictions sel _ xs).getD j default = _
    rw [ih _ j hjxs, storm_getD_set_ne _ _ _ _ hjx]

theorem apply_memory_restrictions_getD_not_mem (num_updates : Nat) :
    ∀ (holes : List Nat) (fam : List Hole) (j : Nat), j ∉ holes →
      (apply_memory_restrictions num_updates fam holes).getD j default =
        fam.getD j default := by
  intro holes
  induction holes with
  | nil => intro fam j _; rfl
  | cons x xs ih =>
    intro fam j hj
    have hjx : j ≠ x := fun h => hj (h ▸ List.mem_cons_self x xs)
    have hjxs : j ∉ xs := fun h => hj (List.mem_cons_of_mem x h)
    show (apply_memory_restrictions num_updates _ xs).getD j default = _
    rw [ih _ j hjxs, storm_getD_set_ne _ _ _ _ hjx]

theorem process_observation_getD_not_mem (q : QuotientModel)
    (dict : List (Nat × List Nat)) (fam : List Hole) (obs j : Nat)
    (hact : j ∉ q.observation_action_holes.getD obs [])
    (hmem : j ∉ q.observation_memory_holes.getD obs []) :
    (process_observation q dict fam obs).getD j default =
      fam.getD j default := by
  unfold process_observation
  by_cases h0 : (q.observation_action_holes.getD obs []).length = 0
  · rw [if_pos h0]
  · rw [if_neg h0]
    rw [apply_memory_restrictions_getD_not_mem _ _ _ _ hmem,
      apply_action_restrictions_getD_not_mem _ _ _ _ hact]

theorem foldl_process_getD (q : QuotientModel)
    (dict : List (Nat × List Nat)) :
    ∀ (obsList : List Nat) (fam : List Hole) (j : Nat),
      (∀ o' ∈ obsList, j ∉ q.observation_action_holes.getD o' [] ∧
        j ∉ q.observation_memory_holes.getD o' []) →
      ((obsList.foldl (process_observation q dict) fam)).getD j default =
        fam.getD j default := by
  intro obsList
  induction obsList with
  | nil => intro fam j _; rfl
  | cons x xs ih =>
    intro fam j hj
    rw [List.foldl_cons]
    rw [ih _ j (fun o' ho' => hj o' (List.mem_cons_of_mem x ho'))]
    exact process_observation_getD_not_mem q dict fam x j
      (hj x (List.mem_cons_self x xs)).1 (hj x (List.mem_cons_self x xs)).2

/-- The new option list `get_main_restricted_family` gives an action hole:
the selected actions present among the hole's current options, or `[0]`
when that filter is empty. -/
def restricted_options (sel : List Nat) (current : List Nat) : List Nat :=
  let options := sel.filter (fun a => current.contains a)
  if options = [] then [0] else options

theorem apply_action_restrictions_getD_mem (sel : List Nat) :
    ∀ (holes : List Nat) (fam : List Hole) (h : Nat), holes.Nodup →
      h ∈ holes → h < fam.length →
      (apply_action_restrictions sel fam holes).getD h default =
        Hole.mk (restricted_options sel ((fam.getD h default).options)) := by
  intro holes
  induction holes with
  | nil => intro fam h _ hmem _; cases hmem
  | cons x xs ih =>
    intro fam h hnd hmem hlen
    have hxnotxs : x ∉ xs := (List.nodup_cons.mp hnd).1
    have hndxs : xs.Nodup := (List.nodup_cons.mp hnd).2
    rcases List.mem_cons.mp hmem with rfl | hmemxs
    · show (apply_action_restrictions sel (fam.set h _) xs).getD h default = _
      rw [apply_action_restrictions_getD_not_mem sel xs _ h hxnotxs]
      rw [storm_getD_set_self fam h _ hlen]
      rfl
    · have hne : h ≠ x := fun heq => hxnotxs (heq ▸ hmemxs)
      show (apply_action_restrictions sel (fam.set x _) xs).getD h default = _
      rw [ih (fam.set x _) h hndxs hmemxs (by
        rw [List.length_set]
        exact hlen)]
      rw [storm_getD_set_ne fam x h _ hne]

theorem process_observation_getD_mem (q : QuotientModel)
    (dict : List (Nat × List Nat)) (fam : List Hole) (obs h : Nat)
    (hh : h ∈ q.observation_action_holes.getD obs [])
    (hnodup : (q.observation_action_holes.getD obs []).Nodup)
    (hmem : h ∉ q.observation_memory_holes.getD obs [])
    (hlen : h < fam.length) :
    (process_observation q dict fam obs).getD h default =
      Hole.mk (restricted_options ((Paynt.alookup dict obs).getD [0])
        ((fam.getD h default).options)) := by
  unfold process_observation
  have h0 : (q.observation_action_holes.getD obs []).length ≠ 0 := by
    intro hlen0
    rw [List.length_eq_zero] at hlen0
    rw [hlen0] at hh
    cases hh
  rw [if_neg h0]
  rw [apply_memory_restrictions_getD_not_mem _ _ _ _ hmem]
  exact apply_action_restrictions_getD_mem _ _ fam h hnodup hh hlen

end StormControl

section ClaimC2

open StormControl

/-- C2 amended: `get_main_restricted_family` returns a fresh family in
which, when the chosen action dictionary is non-empty, every action hole
of an observation *present* in the dictionary gets the dictionary's
actions filtered to the hole's current options (`[0]` when that filter is
empty), while every action hole of an observation *absent* from the
dictionary is restricted to `[0]` (not kept at its full option set, as the
original claim stated); holes belonging to no observation's action or
memory hole lists are left untouched.  Stated for quotients whose
action/memory hole lists do not collide on the hole considered, as the
unfolding guarantees. -/
theorem get_main_restricted_family_amended :
    (∀ (s : StormPOMDPControl) (fam : List Hole) (q : QuotientModel)
        (use_cutoffs : Bool) (o h : Nat),
      s.chosen_result_dict use_cutoffs ≠ [] →
      o < q.observations →
      h ∈ q.observation_action_holes.getD o [] →
      h < fam.length →
      (q.observation_action_holes.getD o []).Nodup →
      (∀ o', o' < q.observations →
        h ∉ q.observation_memory_holes.getD o' []) →
      (∀ o', o' < q.observations → o' ≠ o →
        h ∉ q.observation_action_holes.getD o' []) →
      ((s.get_main_restricted_family fam q use_cutoffs).getD h
          default).options =
        restricted_options
          ((Paynt.alookup (s.chosen_result_dict use_cutoffs) o).getD [0])
          ((fam.getD h default).options)) ∧
    (∀ (s : StormPOMDPControl) (fam : List Hole) (q : QuotientModel)
        (use_cutoffs : Bool) (j : Nat),
      (∀ o', o' < q.observations →
        j ∉ q.observation_action_holes.getD o' [] ∧
        j ∉ q.observation_memory_holes.getD o' []) →
      (s.get_main_restricted_family fam q use_cutoffs).getD j default =
        fam.getD j default) := by
  constructor
  · intro s fam q uc o h hdict ho hh hlen hnodup hmemh hdisj
    simp only [StormPOMDPControl.get_main_restricted_family]
    rw [if_neg hdict]
    have hsplit : List.range q.observations =
        List.range' 0 o ++ (o :: List.range' (o + 1)
          (q.observations - o - 1)) := by
      have h1 : List.range' 0 o ++ List.range' o (q.observations - o) =
          List.range' 0 q.observations := by
        have hr := List.range'_append 0 o (q.observations - o) 1
        simp only [Nat.one_mul, Nat.zero_add] at hr
        rw [hr]
        congr 1
        omega
      have h2 : List.range' o (q.observations - o) =
          o :: List.range' (o + 1) (q.observations - o - 1) := by
        have hk : q.observations - o = (q.observations - o - 1) + 1 := by
          omega
        rw [hk]
        have hr := List.range'_succ o (q.observations - o - 1) 1
        simpa using hr
      rw [List.range_eq_range', ← h1, h2]
    rw [hsplit, List.foldl_append, List.foldl_cons]
    have hsuffix : ∀ o' ∈ List.range' (o + 1) (q.observations - o - 1),
        h ∉ q.observation_action_holes.getD o' [] ∧
        h ∉ q.observation_memory_holes.getD o' [] := by
      intro o' ho'
      rw [List.mem_range'] at ho'
      obtain ⟨i, hik, hoi⟩ := ho'
      exact ⟨hdisj o' (by omega) (by omega), hmemh o' (by omega)⟩
    rw [foldl_process_getD q (s.chosen_result_dict uc) _ _ h hsuffix]
    have hprefix : ∀ o' ∈ List.range' 0 o,
        h ∉ q.observation_action_holes.getD o' [] ∧
        h ∉ q.observation_memory_holes.getD o' [] := by
      intro o' ho'
      rw [List.mem_range'] at ho'
      obtain ⟨i, hik, hoi⟩ := ho'
      exact ⟨hdisj o' (by omega) (by omega), hmemh o' (by omega)⟩
    have hpre := foldl_process_getD q (s.chosen_result_dict uc)
      (List.range' 0 o) fam h hprefix
    have hlenpre : ((List.range' 0 o).foldl
        (process_observation q (s.chosen_result_dict uc)) fam).length =
        fam.length :=
      foldl_process_length q (s.chosen_result_dict uc) (List.range' 0 o) fam
    rw [process_observation_getD_mem q (s.chosen_result_dict uc) _ o h hh
      hnodup (hmemh o ho) (by rw [hlenpre]; exact hlen)]
    rw [hpre]
  · intro s fam q uc j hj
    simp only [StormPOMDPControl.get_main_restricted_family]
    by_cases hdict : s.chosen_result_dict uc = []
    · rw [if_pos hdict]
    · rw [if_neg hdict]
      apply foldl_process_getD
      intro o' ho'
      rw [List.mem_range] at ho'
      exact hj o' ho'

/-- Witness for C2's amended statement: observation 1 is present in the
dictionary `{1 ↦ [0]}`, so its action hole 1 is restricted to the
dictionary actions filtered to its options. -/
theorem get_main_restricted_family_amended_witness :
    (((StormPOMDPControl.mk [(1, [0])] [] [] true none none
          []).get_main_restricted_family
        [Hole.mk [0, 1], Hole.mk [0, 1]]
        (QuotientModel.mk 2 [2, 2] [1, 1] [[0], [1]] [[], []])
        true).getD 1 default).options =
      restricted_options
        ((Paynt.alookup ((StormPOMDPControl.mk [(1, [0])] [] [] true none
          none []).chosen_result_dict true) 1).getD [0])
        (([Hole.mk [0, 1], Hole.mk [0, 1]].getD 1 default).options) :=
  get_main_restricted_family_amended.1
    (StormPOMDPControl.mk [(1, [0])] [] [] true none none [])
    [Hole.mk [0, 1], Hole.mk [0, 1]]
    (QuotientModel.mk 2 [2, 2] [1, 1] [[0], [1]] [[], []])
    true 1 1
    (by decide) (by decide) (by decide) (by decide) (by decide)
    (by decide) (by decide)

end ClaimC2

section ClaimC10

open StormControl

/-- C10: `update_data` leaves the state unchanged (in particular
`is_storm_better`, `latest_paynt_result` and `paynt_export`) whenever the
internal value or the stored storm bound is missing; otherwise it sets
`is_storm_better` to false exactly when the internal value is at least as
good as the storm bound — `paynt_value ≤ storm_bounds` when minimizing,
`paynt_value ≥ storm_bounds` when maximizing — so an exact tie counts the
internal result as better. -/
theorem update_data_spec (s : StormPOMDPControl) (paynt_value : Option ℚ)
    (minimizing : Bool) (assignment : Option (List Hole))
    (extract_policy : List Hole → List (List Nat)) :
    ((paynt_value = none ∨ s.storm_bounds = none) →
      s.update_data paynt_value minimizing assignment extract_policy = s) ∧
    (∀ pv sb, paynt_value = some pv → s.storm_bounds = some sb →
      ((s.update_data paynt_value minimizing assignment
          extract_policy).is_storm_better = false ↔
        (if minimizing then pv ≤ sb else sb ≤ pv))) := by
  constructor
  · intro hnone
    unfold StormPOMDPControl.update_data
    rcases hpv : paynt_value with _ | pv <;>
      rcases hsb : s.storm_bounds with _ | sb <;>
      simp_all
  · intro pv sb hpv hsb
    unfold StormPOMDPControl.update_data
    rw [hpv, hsb]
    rcases assignment with _ | a <;> rcases minimizing with _ | _
    · by_cases hc : sb ≤ pv
      · simp [hc]
      · simp [hc]
    · by_cases hc : pv ≤ sb
      · simp [hc]
      · simp [hc]
    · by_cases hc : sb ≤ pv
      · simp [hc]
      · simp [hc]
    · by_cases hc : pv ≤ sb
      · simp [hc]
      · simp [hc]

/-- Witness for C10: a state with a stored bound, compared against an
equal internal value under minimization — the tie marks the internal
result as better. -/
theorem update_data_spec_witness :
    ((StormPOMDPControl.mk [] [] [] true (some 5) none []).update_data
        (some 5) true none (fun _ => [])).is_storm_better = false := by
  have h := (update_data_spec
    (StormPOMDPControl.mk [] [] [] true (some 5) none [])
    (some 5) true none (fun _ => [])).2 5 5 rfl rfl
  rw [h]
  norm_num

end ClaimC10

section ClaimC2Counterexample

open StormControl

/-- C2 counterexample: with the non-empty dictionary `{1 ↦ [0]}` over a
quotient with two observations, each owning one action hole with options
`{0, 1}`, the action hole of observation 0 — absent from the dictionary —
is restricted to `[0]` by `get_main_restricted_family` instead of keeping
its full option set. -/
theorem get_main_restricted_family_counterexample :
    (((StormPOMDPControl.mk [(1, [0])] [] [] true none none
          []).get_main_restricted_family
        [Hole.mk [0, 1], Hole.mk [0, 1]]
        (QuotientModel.mk 2 [2, 2] [1, 1] [[0], [1]] [[], []])
        true).getD 0 default).options = [0] ∧
    (([Hole.mk [0, 1], Hole.mk [0, 1]].getD 0 default).options = [0, 1]) ∧
    ¬ ((((StormPOMDPControl.mk [(1, [0])] [] [] true none none
          []).get_main_restricted_family
        [Hole.mk [0, 1], Hole.mk [0, 1]]
        (QuotientModel.mk 2 [2, 2] [1, 1] [[0], [1]] [[], []])
        true).getD 0 default).options =
      ([Hole.mk [0, 1], Hole.mk [0, 1]].getD 0 default).options) := by
  decide

end ClaimC2Counterexample

namespace StormControl

/-- One `{hole, restriction}` record of a subfamily description, as built
by `get_subfamilies_restrictions` and `get_subfamilies`. -/
structure Restriction where
  hole : Nat
  restriction : List Nat
deriving DecidableEq, Repr

instance : Inhabited Restriction := ⟨⟨0, []⟩⟩

/-- First phase of `get_subfamilies`: the description `i` pins the records
before `i` to their recommended restriction and flips record `i` to the
complement of its restriction within the family's options for that
hole. -/
def subfamily_base (R : List Restriction) (fam : List Hole) (i : Nat) :
    List Restriction :=
  (List.range (i + 1)).map (fun j =>
    if i ≠ j then R.getD j default
    else
      Restriction.mk (R.getD j default).hole
        (((fam.getD (R.getD j default).hole default).options).filter
          (fun a => !((R.getD j default).restriction.contains a))))

/-- Second phase of `get_subfamilies`: append, for every action hole of
every observation, a record carrying the hole's family options (or an
empty restriction when the description already mentions the hole). -/
def subfamily_extras (q : QuotientModel) (fam : List Hole)
    (holes : List Nat) : List Restriction :=
  (List.range q.observations).foldl (fun acc obs =>
    acc ++ (q.observation_action_holes.getD obs []).map (fun hole =>
      Restriction.mk hole
        (if holes.contains hole then []
         else (List.range (q.actions_at_observation.getD obs 0)).filter
           (fun a => (fam.getD hole default).options.contains a)))) []

/-- Embeds `StormPOMDPControl.get_subfamilies`: empty for an empty restriction
list, else one description per restriction record, each being its
prefix-flip base followed by the appended per-observation records. -/
def get_subfamilies (q : QuotientModel) (restrictions : List Restriction)
    (family : List Hole) : List (List Restriction) :=
  if restrictions.length = 0 then []
  else
    ((List.range restrictions.length).map
      (subfamily_base restrictions family)).map (fun subfamily =>
        subfamily ++
          subfamily_extras q family (subfamily.map Restriction.hole))

/-- An assignment (hole index ↦ chosen action) satisfies a subfamily
description when its value at every record's hole lies in the record's
restriction. -/
def satisfies_description (a : Nat → Nat) (D : List Restriction) : Bool :=
  D.all (fun r => r.restriction.contains (a r.hole))

theorem subfamily_base_length (R : List Restriction) (fam : List Hole)
    (i : Nat) : (subfamily_base R fam i).length = i + 1 := by
  simp [subfamily_base]

theorem subfamily_base_getD (R : List Restriction) (fam : List Hole)
    (i j : Nat) (hj : j < i + 1) :
    (subfamily_base R fam i).getD j default =
      if i ≠ j then R.getD j default
      else
        Restriction.mk (R.getD j default).hole
          (((fam.getD (R.getD j default).hole default).options).filter
            (fun a => !((R.getD j default).restriction.contains a))) := by
  rw [List.getD_eq_getElem _ _ (by simpa [subfamily_base] using hj)]
  simp [subfamily_base]

theorem get_subfamilies_getD (q : QuotientModel) (R : List Restriction)
    (fam : List Hole) (hR : ¬R.length = 0) (i : Nat) (hi : i < R.length) :
    (get_subfamilies q R fam).getD i [] =
      subfamily_base R fam i ++
        subfamily_extras q fam
          ((subfamily_base R fam i).map Restriction.hole) := by
  unfold get_subfamilies
  rw [if_neg hR]
  rw [List.getD_eq_getElem _ _ (by simpa using hi)]
  simp

theorem getD_append_left_restriction (l1 l2 : List Restriction) (j : Nat)
    (h : j < l1.length) :
    (l1 ++ l2).getD j default = l1.getD j default := by
  rw [List.getD_eq_getElem _ _ (by simp; omega),
    List.getD_eq_getElem _ _ h]
  exact List.getElem_append_left h

theorem get_subfamilies_disjoint_core (q : QuotientModel)
    (R : List Restriction) (fam : List Hole) (hR : ¬R.length = 0)
    (i k : Nat) (hi : i < R.length) (hk : k < R.length) (hik : i < k)
    (a : Nat → Nat)
    (hsi : satisfies_description a ((get_subfamilies q R fam).getD i []) = true)
    (hsk : satisfies_description a ((get_subfamilies q R fam).getD k []) = true) :
    False := by
  have hDi := get_subfamilies_getD q R fam hR i hi
  have hDk := get_subfamilies_getD q R fam hR k hk
  have hflip_mem : (subfamily_base R fam i).getD i default ∈
      (get_subfamilies q R fam).getD i [] := by
    rw [hDi]
    apply List.mem_append_left
    rw [List.getD_eq_getElem _ _ (by rw [subfamily_base_length]; omega)]
    exact List.getElem_mem _
  have hri_mem : (subfamily_base R fam k).getD i default ∈
      (get_subfamilies q R fam).getD k [] := by
    rw [hDk]
    apply List.mem_append_left
    rw [List.getD_eq_getElem _ _ (by rw [subfamily_base_length]; omega)]
    exact List.getElem_mem _
  have hv1 : (subfamily_base R fam i).getD i default =
      Restriction.mk (R.getD i default).hole
        (((fam.getD (R.getD i default).hole default).options).filter
          (fun a => !((R.getD i default).restriction.contains a))) := by
    rw [subfamily_base_getD R fam i i (by omega)]
    simp
  have hv2 : (subfamily_base R fam k).getD i default = R.getD i default := by
    rw [subfamily_base_getD R fam k i (by omega)]
    rw [if_pos (by omega)]
  rw [satisfies_description, List.all_eq_true] at hsi hsk
  have h1 := hsi _ hflip_mem
  rw [hv1] at h1
  have h2 := hsk _ hri_mem
  rw [hv2] at h2
  have hmem1 : a (R.getD i default).hole ∈
      ((fam.getD (R.getD i default).hole default).options).filter
        (fun x => !((R.getD i default).restriction.contains x)) := by
    simpa using h1
  have hnot := (List.mem_filter.mp hmem1).2
  have hmem2 : a (R.getD i default).hole ∈ (R.getD i default).restriction := by
    simpa using h2
  rw [Bool.not_eq_true'] at hnot
  have : ¬(a (R.getD i default).hole ∈ (R.getD i default).restriction) := by
    simpa using hnot
  exact this hmem2

end StormControl

section ClaimC8

open StormControl

/-- C8: for a non-empty restriction list, `get_subfamilies` returns
exactly one description per restriction record; the `i`-th description
carries, at positions `j < i`, exactly the oracle's records, and at
position `i` the record with the complement (within the family's options
for that hole) of record `i`'s restriction; and no assignment satisfies
two distinct descriptions. -/
theorem get_subfamilies_spec (q : QuotientModel) (R : List Restriction)
    (fam : List Hole) (hR : R ≠ []) :
    ((get_subfamilies q R fam).length = R.length ∧
     (∀ i, i < R.length → ∀ j, j < i →
        ((get_subfamilies q R fam).getD i []).getD j default =
          R.getD j default) ∧
     (∀ i, i < R.length →
        ((get_subfamilies q R fam).getD i []).getD i default =
          Restriction.mk (R.getD i default).hole
            (((fam.getD (R.getD i default).hole default).options).filter
              (fun a => !((R.getD i default).restriction.contains a)))) ∧
     (∀ i k, i < R.length → k < R.length → i ≠ k → ∀ a : Nat → Nat,
        ¬(satisfies_description a
            ((get_subfamilies q R fam).getD i []) = true ∧
          satisfies_description a
            ((get_subfamilies q R fam).getD k []) = true))) := by
  have hR0 : ¬R.length = 0 := by
    intro h
    exact hR (List.length_eq_zero.mp h)
  refine ⟨?_, ?_, ?_, ?_⟩
  · unfold get_subfamilies
    rw [if_neg hR0]
    simp
  · intro i hi j hj
    rw [get_subfamilies_getD q R fam hR0 i hi]
    rw [getD_append_left_restriction _ _ j
      (by rw [subfamily_base_length]; omega)]
    rw [subfamily_base_getD R fam i j (by omega)]
    rw [if_pos (by omega)]
  · intro i hi
    rw [get_subfamilies_getD q R fam hR0 i hi]
    rw [getD_append_left_restriction _ _ i
      (by rw [subfamily_base_length]; omega)]
    rw [subfamily_base_getD R fam i i (by omega)]
    simp
  · intro i k hi hk hik a habs
    obtain ⟨hsi, hsk⟩ := habs
    rcases Nat.lt_or_ge i k with hlt | hge
    · exact get_subfamilies_disjoint_core q R fam hR0 i k hi hk hlt a hsi hsk
    · have hlt : k < i := by omega
      exact get_subfamilies_disjoint_core q R fam hR0 k i hk hi hlt a hsk hsi

/-- Witness for C8 on the restriction list `[{hole 0, [0]}, {hole 1, [1]}]`
over the family `{0,1} × {0,1}`: two descriptions are produced and no
assignment satisfies both. -/
theorem get_subfamilies_spec_witness :
    (get_subfamilies (QuotientModel.mk 2 [2, 2] [1, 1] [[0], [1]] [[], []])
        [Restriction.mk 0 [0], Restriction.mk 1 [1]]
        [Hole.mk [0, 1], Hole.mk [0, 1]]).length = 2 ∧
    ¬(satisfies_description (fun _ => 0)
        ((get_subfamilies (QuotientModel.mk 2 [2, 2] [1, 1] [[0], [1]]
            [[], []])
          [Restriction.mk 0 [0], Restriction.mk 1 [1]]
          [Hole.mk [0, 1], Hole.mk [0, 1]]).getD 0 []) = true ∧
      satisfies_description (fun _ => 0)
        ((get_subfamilies (QuotientModel.mk 2 [2, 2] [1, 1] [[0], [1]]
            [[], []])
          [Restriction.mk 0 [0], Restriction.mk 1 [1]]
          [Hole.mk [0, 1], Hole.mk [0, 1]]).getD 1 []) = true) := by
  have h := get_subfamilies_spec
    (QuotientModel.mk 2 [2, 2] [1, 1] [[0], [1]] [[], []])
    [Restriction.mk 0 [0], Restriction.mk 1 [1]]
    [Hole.mk [0, 1], Hole.mk [0, 1]] (by decide)
  exact ⟨h.1, h.2.2.2 0 1 (by decide) (by decide) (by decide) (fun _ => 0)⟩

end ClaimC8


